import Mathlib

/-!
# GeniusSwarmShowcase: a verification development

A shallow embedding of `src/GeniusSwarmShowcase.jsx`.

* A JavaScript string is the sequence of its UTF-16 code units, `List Nat`.
  `s.length` is `List.length`, and the regular expressions of the source
  (none carries the `u` flag) work code unit by code unit.
* The component state (`input`, `out`, `history`) is a record; every event
  handler is a function on it.  `Date.now()` is an argument of the handler.
-/

namespace GeniusSwarm

/-- A JavaScript string: its UTF-16 code units. -/
abbrev JSString := List Nat

/-- The code units of a string literal of the source (all of them are in the
Basic Multilingual Plane, one code unit per character). -/
def lit (s : String) : JSString := s.toList.map Char.toNat

/-- The characters matched by `\s`, which are also the ones `trim` strips:
ECMAScript WhiteSpace (TAB, VT, FF, SP, NBSP, ZWNBSP, category Zs) and
LineTerminator (LF, CR, LS, PS). -/
def isWs (c : Nat) : Bool :=
  c == 0x09 || c == 0x0A || c == 0x0B || c == 0x0C || c == 0x0D || c == 0x20 ||
  c == 0xA0 || c == 0x1680 || (0x2000 ≤ c && c ≤ 0x200A) ||
  c == 0x2028 || c == 0x2029 || c == 0x202F || c == 0x205F || c == 0x3000 ||
  c == 0xFEFF

/-- The characters matched by `\w`: `[A-Za-z0-9_]`. -/
def isWord (c : Nat) : Bool :=
  (0x41 ≤ c && c ≤ 0x5A) || (0x61 ≤ c && c ≤ 0x7A) || (0x30 ≤ c && c ≤ 0x39) || c == 0x5F

/-- The characters matched by `[A-Z]`. -/
def isUpperAZ (c : Nat) : Bool := 0x41 ≤ c && c ≤ 0x5A

/-- `String.prototype.trim`. -/
def trim (s : JSString) : JSString :=
  ((s.dropWhile isWs).reverse.dropWhile isWs).reverse

/-- `s.replace(/\s+/g, " ")`, scanning left to right: the first character of
a run of whitespace emits the replacement, the rest of the run (`prevWs`) is
consumed with it. -/
def replaceWsAux : Bool → JSString → JSString
  | _, [] => []
  | prevWs, c :: cs =>
    if isWs c then
      if prevWs then replaceWsAux true cs else 0x20 :: replaceWsAux true cs
    else c :: replaceWsAux false cs

/-- `s.replace(/\s+/g, " ")`. -/
def replaceWs (s : JSString) : JSString := replaceWsAux false s

/-- `sanitize = (s) => s.trim().replace(/\s+/g, " ")`. -/
def sanitize (s : JSString) : JSString := replaceWs (trim s)

/-- `s.split(sep)` for a one-character separator string: the pieces between
the occurrences of `sep` (the empty string gives one empty piece). -/
def split (sep : Nat) : JSString → List JSString
  | [] => [[]]
  | c :: cs =>
    if c = sep then [] :: split sep cs
    else match split sep cs with
      | t :: ts => (c :: t) :: ts
      | [] => [[c]]

/-- `xs.join(sep)`. -/
def join (sep : JSString) (xs : List JSString) : JSString := List.intercalate sep xs

/-- `s.replace(/\W+/g, "-")`, scanned like `replaceWsAux`. -/
def replaceNonWordAux : Bool → JSString → JSString
  | _, [] => []
  | prevSep, c :: cs =>
    if isWord c then c :: replaceNonWordAux false cs
    else if prevSep then replaceNonWordAux true cs
    else 0x2D :: replaceNonWordAux true cs

/-- `s.replace(/\W+/g, "-")`. -/
def replaceNonWord (s : JSString) : JSString := replaceNonWordAux false s

/-- `s.split(/\W+/)`: the pieces between the maximal runs of non-word
characters; a run at the start or at the end leaves an empty piece there. -/
def splitNonWordAux : Bool → JSString → List JSString
  | _, [] => [[]]
  | prevSep, c :: cs =>
    if isWord c then
      match splitNonWordAux false cs with
      | t :: ts => (c :: t) :: ts
      | [] => [[c]]
    else if prevSep then splitNonWordAux true cs
    else [] :: splitNonWordAux true cs

/-- `s.split(/\W+/)`. -/
def splitNonWord (s : JSString) : List JSString := splitNonWordAux false s

/-- The replacement of every hyphen by an underscore, `replace` with the global
flag on the one-character pattern. -/
def replaceHyphens (s : JSString) : JSString := s.map fun c => if c = 0x2D then 0x5F else c

/-- The lower-case form of one code unit, as far as the callers can see it.
`A`..`Z` go to `a`..`z`.  Outside ASCII exactly two characters have a
lower-case form containing an ASCII character: U+0130 (to `i` followed by
U+0307) and U+212A, the Kelvin sign (to `k`).  Every other code unit is kept:
its lower-case form is again outside ASCII, and `Coder` and `GeniusRemix`
only keep the `\w` characters of a lower-cased string. -/
def lowerUnit (c : Nat) : List Nat :=
  if 0x41 ≤ c ∧ c ≤ 0x5A then [c + 0x20]
  else if c = 0x130 then [0x69, 0x307]
  else if c = 0x212A then [0x6B]
  else [c]

/-- `String.prototype.toLowerCase` (see `lowerUnit`). -/
def toLowerCase : JSString → JSString
  | [] => []
  | c :: cs => lowerUnit c ++ toLowerCase cs

/-- Canonicalisation of a code unit under the `i` flag without the `u` flag:
the upper-case form, except that a character outside ASCII is never mapped
into ASCII. -/
def canonicalize (c : Nat) : Nat := if 0x61 ≤ c ∧ c ≤ 0x7A then c - 0x20 else c

/-- Whether `pat` occurs in `s` when both are compared through `canonicalize`:
`s.match(/pat/gi)` is non-null. -/
def matchCI (pat : JSString) : JSString → Bool
  | [] => pat.isEmpty
  | c :: cs =>
    (pat.map canonicalize).isPrefixOf ((c :: cs).map canonicalize) || matchCI pat cs

/-- `/[A-Z]/.test(s)`. -/
def testUpper (s : JSString) : Bool := s.any isUpperAZ

/-- `/\w+\s+\w+/.test(s)`: some word character is followed by a non-empty run
of whitespace and then by a word character. -/
def testWordWsWord : JSString → Bool
  | [] => false
  | c :: cs =>
    (isWord c && decide ((cs.dropWhile isWs).length < cs.length) &&
      (match cs.dropWhile isWs with
       | d :: _ => isWord d
       | [] => false)) || testWordWsWord cs

/-- `const Promptor = (input) => ...`. -/
def Promptor (input : JSString) : JSString :=
  let base := sanitize input
  if base = [] then lit "Provide a short idea to start."
  else base ++ lit " — short concise brief, target audience: early adopters, 1-line value prop."

/-- `const Orchestrator = (input) => ...`. -/
def Orchestrator (input : JSString) : JSString :=
  let p := sanitize input
  let steps : List JSString := [
    lit "Clarify: extract main goal from '" ++
      (join (lit " ") ((split 0x20 p).take 6) ++ (if p.length > 40 then lit "..." else lit "")) ++
      lit "'",
    lit "Design minimal UX: single flow, 3 actions",
    lit "Deliverables: README, demo, 1 test, 1 screenshot"]
  join (lit "\n") steps

/-- `const Coder = (input) => ...`. -/
def Coder (input : JSString) : JSString :=
  let n := toLowerCase (sanitize input)
  if n = [] then lit "No idea to code."
  else
    let joined := join (lit "-") ((splitNonWord n).take 3)
    let fileName := if joined = [] then lit "demo" else joined
    lit "// " ++ fileName ++ lit ".js\nexport default function " ++ replaceHyphens fileName ++
      lit "()\x7b return 'hello from " ++ fileName ++ lit "'; \x7d"

/-- `const Reviewer = (input) => ...`. -/
def Reviewer (input : JSString) : JSString :=
  let s := sanitize input
  if s = [] then lit "Nothing to review."
  else
    let bullets : List JSString :=
      (if s.length < 40 then [lit "Expand the narrative with 1 user story."] else []) ++
      (if !testUpper s then [lit "Add a capitalized headline."] else []) ++
      [lit "Remove jargon; prefer outcomes."]
    join (lit "\n") bullets

/-- `const FactChecker = (input) => ...`. -/
def FactChecker (input : JSString) : JSString :=
  let s := sanitize input
  if s = [] then lit "Nothing to check."
  else
    let flags : List JSString :=
      (if matchCI (lit "all") s || matchCI (lit "always") s || matchCI (lit "never") s then
        [lit "Vague absolutes detected: 'all/always/never'. Consider softening."] else []) ++
      (if matchCI (lit "blockchain") s || matchCI (lit "ai") s || matchCI (lit "crypto") s then
        [lit "Buzzword present: add concrete metric or user scenario."] else [])
    if flags.length ≠ 0 then join (lit "\n") flags else lit "No obvious factual red flags."

/-- A finite non-negative IEEE 754 double, the value `m * 2 ^ e`.  The numbers
of `Assessor` lie between `2 ^ (-60)` and `2 ^ 7` or are quotients of string
lengths, so signs, subnormals, infinities and NaN do not arise. -/
structure Dbl where
  m : Nat
  e : Int
  deriving DecidableEq

namespace Dbl

/-- The number of binary digits of `n`, with `fuel` steps of halving. -/
def bitsAux : Nat → Nat → Nat
  | 0, _ => 0
  | fuel + 1, n => if n = 0 then 0 else bitsAux fuel (n / 2) + 1

/-- The number of binary digits of `n` (`n` halvings always reach zero). -/
def bits (n : Nat) : Nat := bitsAux n n

/-- Rounding of `m * 2 ^ e` to a 53-bit significand, to nearest, ties to even. -/
def round53 (m : Nat) (e : Int) : Dbl :=
  if m < 2 ^ 53 then ⟨m, e⟩
  else
    let k := bits m - 53
    let q := m / 2 ^ k
    let r := m % 2 ^ k
    let q1 := if 2 ^ (k - 1) < r ∨ (r = 2 ^ (k - 1) ∧ q % 2 = 1) then q + 1 else q
    ⟨q1, e + k⟩

/-- The double nearest to the rational `n / d` (`d ≠ 0`): a decimal literal
such as `0.6`, or the quotient of two integers that are themselves doubles.
The quotient is taken to at least 55 bits plus a sticky bit, then rounded. -/
def ofRat (n d : Nat) : Dbl :=
  if n = 0 then ⟨0, 0⟩
  else
    let s := 54 + bits d
    let x := n * 2 ^ s
    round53 (2 * (x / d) + (if x % d = 0 then 0 else 1)) (-((s : Int) + 1))

/-- The double of an integer below `2 ^ 53`. -/
def ofNat (n : Nat) : Dbl := ⟨n, 0⟩

/-- The product `a * b` of doubles. -/
def mul (a b : Dbl) : Dbl := round53 (a.m * b.m) (a.e + b.e)

/-- The sum `a + b` of doubles. -/
def add (a b : Dbl) : Dbl :=
  let e := min a.e b.e
  round53 (a.m * 2 ^ (a.e - e).toNat + b.m * 2 ^ (b.e - e).toNat) e

/-- The comparison `a ≤ b` of doubles. -/
def le (a b : Dbl) : Bool :=
  let e := min a.e b.e
  decide (a.m * 2 ^ (a.e - e).toNat ≤ b.m * 2 ^ (b.e - e).toNat)

/-- `Math.min(a, b)`. -/
def min (a b : Dbl) : Dbl := if le a b then a else b

/-- `Math.round(x)` for `x ≥ 0`: the integer nearest to `x`, a tie going up. -/
def round (x : Dbl) : Nat :=
  if 0 ≤ x.e then x.m * 2 ^ x.e.toNat
  else (2 * x.m + 2 ^ (-x.e).toNat) / 2 ^ ((-x.e).toNat + 1)

end Dbl

/-- The decimal digits of a non-negative integer, `String(n)`. -/
def numberToString (n : Nat) : JSString := (Nat.toDigits 10 n).map Char.toNat

/-- The object returned by `Assessor`. -/
structure Assessment where
  score : Nat
  note : JSString
  deriving DecidableEq

/-- `const Assessor = (input) => ...`. -/
def Assessor (input : JSString) : Assessment :=
  let s := sanitize input
  if s = [] then ⟨0, lit "Empty"⟩
  else
    let lenFactor := Dbl.min (Dbl.ofNat 1) (Dbl.ofRat s.length 120)
    let clarity := if testWordWsWord s then Dbl.ofRat 6 10 else Dbl.ofRat 3 10
    let score := Dbl.round
      (Dbl.mul (Dbl.add (Dbl.mul (Dbl.ofRat 5 10) lenFactor) (Dbl.mul (Dbl.ofRat 5 10) clarity))
        (Dbl.ofNat 100))
    ⟨score, if score > 70 then lit "Ready for demo" else lit "Needs iteration"⟩

/-- The object returned by `GeniusRemix`. -/
structure Remix where
  blurb : JSString
  commit : JSString
  tweet : JSString
  deriving DecidableEq

/-- The `oneLiner` of `GeniusRemix`. -/
def oneLiner (input : JSString) : JSString :=
  let s := sanitize input
  if s ≠ [] then
    join (lit " ") ((split 0x20 s).take 6) ++ (if (split 0x20 s).length > 6 then lit "..." else lit "")
  else lit "A tiny idea that scales."

/-- `const GeniusRemix = (input) => ...`. -/
def GeniusRemix (input : JSString) : Remix :=
  let oneLiner := oneLiner input
  { blurb := oneLiner ++
      lit "\n\nWhy it matters: Converts friction into action.\nTry it: clone, run, iterate."
    commit := lit "feat: prototype " ++ toLowerCase (replaceNonWord oneLiner)
    tweet := oneLiner ++ lit " — demo + repo in bio. #buildinpublic" }

/-- What a call through `mapping[role]` may return: a string (every role
function), or, for a function inherited from `Object.prototype`, a `String`
object or a boolean. -/
inductive Value where
  | str (s : JSString)
  | strObj (s : JSString)
  | bool (b : Bool)
  deriving DecidableEq

/-- The properties every object literal inherits from `Object.prototype`. -/
inductive ProtoMember where
  | constructor | hasOwnProperty | isPrototypeOf | propertyIsEnumerable
  | toLocaleString | toString | valueOf | proto
  | defineGetter | defineSetter | lookupGetter | lookupSetter
  deriving DecidableEq

/-- The value of a property lookup on the object literal `mapping`. -/
inductive Member where
  | own (f : JSString → JSString)
  | inherited (p : ProtoMember)
  | undefined

/-- An exception thrown by a handler. -/
inductive JSError where
  | typeError
  deriving DecidableEq

/-- `mapping[role]` for `const mapping = { Promptor, Orchestrator, Coder,
Reviewer, FactChecker }`: an own property, else a property found on the
prototype chain, else `undefined`. -/
def mapping (role : JSString) : Member :=
  if role = lit "Promptor" then .own Promptor
  else if role = lit "Orchestrator" then .own Orchestrator
  else if role = lit "Coder" then .own Coder
  else if role = lit "Reviewer" then .own Reviewer
  else if role = lit "FactChecker" then .own FactChecker
  else if role = lit "constructor" then .inherited .constructor
  else if role = lit "hasOwnProperty" then .inherited .hasOwnProperty
  else if role = lit "isPrototypeOf" then .inherited .isPrototypeOf
  else if role = lit "propertyIsEnumerable" then .inherited .propertyIsEnumerable
  else if role = lit "toLocaleString" then .inherited .toLocaleString
  else if role = lit "toString" then .inherited .toString
  else if role = lit "valueOf" then .inherited .valueOf
  else if role = lit "__proto__" then .inherited .proto
  else if role = lit "__defineGetter__" then .inherited .defineGetter
  else if role = lit "__defineSetter__" then .inherited .defineSetter
  else if role = lit "__lookupGetter__" then .inherited .lookupGetter
  else if role = lit "__lookupSetter__" then .inherited .lookupSetter
  else .undefined

/-- The call `fn(input)` of a looked-up member on a string, with no receiver:
`Object.prototype.toString` answers for `undefined`, `Object` wraps the
string, `isPrototypeOf` answers `false` for a primitive; the other inherited
methods convert the missing receiver to an object and throw, and
`__proto__` is an object, not a function. -/
def call (m : Member) (input : JSString) : Except JSError Value :=
  match m with
  | .own f => .ok (.str (f input))
  | .inherited .toString => .ok (.str (lit "[object Undefined]"))
  | .inherited .constructor => .ok (.strObj input)
  | .inherited .isPrototypeOf => .ok (.bool false)
  | .inherited _ => .error .typeError
  | .undefined => .error .typeError

/-- An element of `history`. -/
structure RunRecord where
  role : JSString
  input : JSString
  result : Value
  time : Nat
  deriving DecidableEq

/-- The state of the component: the three `useState` cells. -/
structure State where
  input : JSString
  out : Value
  history : List RunRecord
  deriving DecidableEq

/-- The initial state: `useState("")`, `useState("")`, `useState([])`. -/
def State.init : State := ⟨[], .str [], []⟩

/-- The history update of the three handlers, `h => [entry, ...h].slice(0,20)`. -/
def record (entry : RunRecord) (h : List RunRecord) : List RunRecord := (entry :: h).take 20

/-- `const run = (role) => ...`, with `now` the value of `Date.now()`. -/
def run (role : JSString) (now : Nat) (st : State) : Except JSError State :=
  match mapping role with
  | .undefined => .ok st
  | fn =>
    match call fn st.input with
    | .error err => .error err
    | .ok result =>
      .ok { st with
        out := result
        history := record ⟨role, st.input, result, now⟩ st.history }

/-- `const runAssess = () => ...`. -/
def runAssess (now : Nat) (st : State) : State :=
  let a := Assessor st.input
  let r := lit "Score: " ++ numberToString a.score ++ lit "\n" ++ a.note
  { st with
    out := .str r
    history := record ⟨lit "Assessor", st.input, .str r, now⟩ st.history }

/-- `const remix = () => ...`. -/
def remix (now : Nat) (st : State) : State :=
  let r := GeniusRemix st.input
  let combined := lit "--- Genius Remix ---\n" ++ r.blurb ++ lit "\n\nCommit: " ++ r.commit ++
    lit "\nTweet: " ++ r.tweet
  { st with
    out := .str combined
    history := record ⟨lit "GeniusRemix", st.input, .str combined, now⟩ st.history }

/-- The `onClick` of the Clear button: `setInput(''); setOut('')`. -/
def clear (st : State) : State := { st with input := [], out := .str [] }

/-- The `onChange` of the text area: `setInput(e.target.value)`. -/
def setInput (value : JSString) (st : State) : State := { st with input := value }

/-- The actions the component exposes. -/
inductive Action where
  | edit (value : JSString)
  | run (role : JSString) (now : Nat)
  | runAssess (now : Nat)
  | remix (now : Nat)
  | clear
  deriving DecidableEq

/-- One action on the state.  A handler that throws leaves the state as it
was. -/
def step (st : State) : Action → State
  | .edit value => setInput value st
  | .run role now =>
    match run role now st with
    | .ok st1 => st1
    | .error _ => st
  | .runAssess now => runAssess now st
  | .remix now => remix now st
  | .clear => clear st

/-- The state after a sequence of actions. -/
def exec (st : State) (actions : List Action) : State := actions.foldl step st

/-- The record a handler writes when the action is taken in the state `st`,
if it writes one: `run` with a role that `mapping` knows and whose call
returns, `runAssess` and `remix`. -/
def entryOf (st : State) : Action → Option RunRecord
  | .run role now =>
    match mapping role with
    | .undefined => none
    | fn =>
      match call fn st.input with
      | .ok result => some ⟨role, st.input, result, now⟩
      | .error _ => none
  | .runAssess now => some ⟨lit "Assessor", st.input, (runAssess now st).out, now⟩
  | .remix now => some ⟨lit "GeniusRemix", st.input, (remix now st).out, now⟩
  | .edit _ => none
  | .clear => none

/-- The 21 runs of the witness of C2: `runAssess` at the times 1 to 21. -/
def twentyOneRuns : List Action := (List.range 21).map fun i => Action.runAssess (i + 1)

/-- The input of the counterexample of C8: the word `a`, a space and a word of
118 letters `a`, 120 characters in all. -/
def longIdea : JSString := lit "a " ++ List.replicate 118 0x61

/-- The input of the witness of C10. -/
def schedulerIdea : JSString := lit "build an email scheduler that removes back and forth"

/-- The pattern `pat` occurs in `s` as a substring, up to the case of the
ASCII letters. -/
def ContainsCI (pat s : JSString) : Prop :=
  ∃ l m r, s = l ++ m ++ r ∧ m.map canonicalize = pat.map canonicalize

/-- The first warning line of `FactChecker`. -/
def vagueLine : JSString :=
  lit "Vague absolutes detected: 'all/always/never'. Consider softening."

/-- The second warning line of `FactChecker`. -/
def buzzLine : JSString := lit "Buzzword present: add concrete metric or user scenario."

/-- The input of the witness of C12. -/
def alwaysBlockchain : JSString := lit "This will always work with blockchain"

/-- The score `Assessor` computes for a non-empty normalised input of the
length `len`, `clear` being the outcome of the two-word test. -/
def scoreOf (len : Nat) (clear : Bool) : Nat :=
  let lenFactor := Dbl.min (Dbl.ofNat 1) (Dbl.ofRat len 120)
  let clarity := if clear then Dbl.ofRat 6 10 else Dbl.ofRat 3 10
  Dbl.round
    (Dbl.mul (Dbl.add (Dbl.mul (Dbl.ofRat 5 10) lenFactor) (Dbl.mul (Dbl.ofRat 5 10) clarity))
      (Dbl.ofNat 100))

/-- The score of the specification, in exact arithmetic:
`round((0.5*lenFactor + 0.5*clarity)*100)` with `lenFactor = min(1, len/120)`,
`clarity` 0.6 or 0.3, and `round` taking a half upwards. -/
def exactScore (len : Nat) (clear : Bool) : Nat :=
  ⌊((1 / 2 : ℚ) * min 1 ((len : ℚ) / 120) + 1 / 2 * (if clear then 6 / 10 else 3 / 10)) * 100
    + 1 / 2⌋₊

/-- The lengths at which the score in double arithmetic is one less than the
exact score. -/
def scoreGap (len : Nat) (clear : Bool) : Bool :=
  if clear then len == 66 || len == 114 else len == 18 || len == 42 || len == 102

/-- The input of the counterexample of C16: eighteen letters `a`. -/
def eighteenLetters : JSString := List.replicate 18 0x61

/-- The five simple roles, the own properties of `mapping`. -/
inductive SimpleRole where
  | promptor | orchestrator | coder | reviewer | factChecker
  deriving DecidableEq

/-- The name of a simple role, the key of `mapping` and the label of its
button. -/
def SimpleRole.name : SimpleRole → JSString
  | .promptor => lit "Promptor"
  | .orchestrator => lit "Orchestrator"
  | .coder => lit "Coder"
  | .reviewer => lit "Reviewer"
  | .factChecker => lit "FactChecker"

/-- The function of a simple role. -/
def SimpleRole.fn : SimpleRole → JSString → JSString
  | .promptor => Promptor
  | .orchestrator => Orchestrator
  | .coder => Coder
  | .reviewer => Reviewer
  | .factChecker => FactChecker

/-- No two neighbours are both whitespace. -/
def NoWsPair (a b : Nat) : Prop := ¬(isWs a = true ∧ isWs b = true)

/-- The shape of a normalised string: it neither starts nor ends with
whitespace, has no two whitespace characters in a row, and its only
whitespace character is the ASCII space. -/
def Normalized (t : JSString) : Prop :=
  (∀ c, t.head? = some c → isWs c = false) ∧
  (∀ c, t.getLast? = some c → isWs c = false) ∧
  t.Chain' NoWsPair ∧
  ∀ c ∈ t, isWs c = true → c = 0x20

/-! ## History log -/

theorem length_record_le (e : RunRecord) (h : List RunRecord) : (record e h).length ≤ 20 := by
  simp [record, List.length_take]

theorem history_run_le (role : JSString) (now : Nat) (st st1 : State)
    (hst : st.history.length ≤ 20) (hrun : run role now st = .ok st1) :
    st1.history.length ≤ 20 := by
  unfold run at hrun
  split at hrun
  · cases hrun; exact hst
  · split at hrun
    · cases hrun
    · cases hrun; exact length_record_le _ _

theorem history_step_le (st : State) (a : Action) (hst : st.history.length ≤ 20) :
    (step st a).history.length ≤ 20 := by
  cases a with
  | edit value => exact hst
  | run role now =>
    simp only [step]
    split
    · next st1 h => exact history_run_le role now st st1 hst h
    · exact hst
  | runAssess now => exact length_record_le _ _
  | remix now => exact length_record_le _ _
  | clear => exact hst

theorem history_exec_le (actions : List Action) (st : State) (hst : st.history.length ≤ 20) :
    (exec st actions).history.length ≤ 20 := by
  induction actions generalizing st with
  | nil => exact hst
  | cons a as ih => exact ih (step st a) (history_step_le st a hst)

/-- C1: in every state reached from the initial state (empty input, output
and history) by any sequence of the exposed actions (editing the input,
`run` with any role name, `runAssess`, `remix`, Clear), the history has at
most 20 entries. -/
theorem history_length_le_twenty (actions : List Action) :
    (exec State.init actions).history.length ≤ 20 :=
  history_exec_le actions State.init (by simp [State.init])


theorem step_of_entryOf (st : State) (a : Action) (e : RunRecord)
    (he : entryOf st a = some e) :
    (step st a).input = st.input ∧ (step st a).history = record e st.history := by
  cases a with
  | edit value => simp [entryOf] at he
  | clear => simp [entryOf] at he
  | runAssess now =>
    simp only [entryOf, Option.some.injEq] at he
    subst he
    exact ⟨rfl, rfl⟩
  | remix now =>
    simp only [entryOf, Option.some.injEq] at he
    subst he
    exact ⟨rfl, rfl⟩
  | run role now =>
    simp only [entryOf] at he
    split at he
    · cases he
    · next fn hfn =>
      split at he
      · next result hres =>
        simp only [Option.some.injEq] at he
        subst he
        have hrun : run role now st = .ok { st with
            out := result
            history := record ⟨role, st.input, result, now⟩ st.history } := by
          unfold run
          split
          · next h => exact absurd h hfn
          · rw [hres]
        simp [step, hrun]
      · cases he

theorem entryOf_congr (st st1 : State) (h : st1.input = st.input) (a : Action) :
    entryOf st1 a = entryOf st a := by
  cases a <;> simp [entryOf, runAssess, remix, h]

theorem take_append_take {α : Type} (n : Nat) (xs ys : List α) :
    (xs ++ ys.take n).take n = (xs ++ ys).take n := by
  rw [List.take_append_eq_append_take, List.take_append_eq_append_take, List.take_take]
  congr 2
  omega

theorem history_exec_recording (acts : List Action) (st : State)
    (hst : st.history.length ≤ 20) (hrec : ∀ a ∈ acts, (entryOf st a).isSome) :
    (exec st acts).history =
      ((acts.filterMap (entryOf st)).reverse ++ st.history).take 20 := by
  induction acts generalizing st with
  | nil => simp [exec, List.take_of_length_le hst]
  | cons a as ih =>
    obtain ⟨e, he⟩ := Option.isSome_iff_exists.mp (hrec a (List.mem_cons_self a as))
    obtain ⟨hin, hhist⟩ := step_of_entryOf st a e he
    have hcongr : ∀ b, entryOf (step st a) b = entryOf st b := entryOf_congr st _ hin
    have hrec1 : ∀ b ∈ as, (entryOf (step st a) b).isSome := fun b hb => by
      rw [hcongr]; exact hrec b (List.mem_cons_of_mem a hb)
    have := ih (step st a) (history_step_le st a hst) hrec1
    simp only [exec, List.foldl_cons] at this ⊢
    rw [this, hhist, record, take_append_take]
    have hfun : entryOf (step st a) = entryOf st := funext hcongr
    rw [hfun, List.filterMap_cons, he]
    simp

theorem filterMap_of_isSome {α β : Type} (f : α → Option β) (l : List α)
    (h : ∀ b ∈ l, (f b).isSome) :
    (l.filterMap f).length = l.length ∧ (l.filterMap f).getLast? = l.getLast?.bind f := by
  induction l using List.reverseRecOn with
  | nil => simp
  | append_singleton l b ih =>
    obtain ⟨e, he⟩ := Option.isSome_iff_exists.mp (h b (by simp))
    have ih1 := ih fun c hc => h c (by simp [hc])
    simp [List.filterMap_append, he, ih1.1]

/-- C2: recording a run replaces the history `h` by the first 20 elements of
`entry :: h`: the entry comes first, the old entries follow in their order,
and when `h` had 20 entries exactly its last one is dropped.  After 21 runs
from an empty history the history has 20 entries, starts with the record of
the 21st run and is the list of the records of the runs 21, 20, ..., 2. -/
theorem record_spec (st : State) (a : Action) (e : RunRecord) (he : entryOf st a = some e)
    (st0 : State) (acts : List Action) (h0 : st0.history = []) (hlen : acts.length = 21)
    (hrec : ∀ b ∈ acts, (entryOf st0 b).isSome) :
    ((step st a).history = (e :: st.history).take 20 ∧
      (step st a).history = e :: st.history.take 19 ∧
      (st.history.length < 20 → (step st a).history = e :: st.history) ∧
      (st.history.length = 20 → (step st a).history = e :: st.history.dropLast)) ∧
    ((exec st0 acts).history.length = 20 ∧
      (exec st0 acts).history.head? = acts[20]?.bind (entryOf st0) ∧
      (exec st0 acts).history = (acts.tail.filterMap (entryOf st0)).reverse) := by
  have hstep := (step_of_entryOf st a e he).2
  have hmain := history_exec_recording acts st0 (by simp [h0]) hrec
  rw [h0, List.append_nil] at hmain
  refine ⟨⟨hstep, by rw [hstep]; rfl, ?_, ?_⟩, ?_⟩
  · intro h
    rw [hstep, record, List.take_of_length_le (by simp; omega)]
  · intro h
    rw [hstep, record, List.take_succ_cons, List.dropLast_eq_take, h]
  · match acts, hlen, hrec, hmain with
    | a1 :: rest, hlen, hrec, hmain =>
      obtain ⟨e1, he1⟩ := Option.isSome_iff_exists.mp (hrec a1 (List.mem_cons_self a1 rest))
      have hrest := filterMap_of_isSome (entryOf st0) rest
        fun b hb => hrec b (List.mem_cons_of_mem a1 hb)
      have hl : rest.length = 20 := by simpa using hlen
      have htake : (exec st0 (a1 :: rest)).history = (rest.filterMap (entryOf st0)).reverse := by
        rw [hmain, List.filterMap_cons, he1, List.reverse_cons]
        exact List.take_left' (by simp [hrest.1, hl])
      refine ⟨by simp [htake, hrest.1, hl], ?_, by simpa using htake⟩
      rw [htake, List.head?_reverse, hrest.2, List.getLast?_eq_getElem?, hl]
      simp

/-- C3: Clear empties the input and the output and leaves the history as it
was. -/
theorem clear_spec (st : State) :
    (clear st).input = [] ∧ (clear st).out = Value.str [] ∧ (clear st).history = st.history ∧
      step st Action.clear = clear st :=
  ⟨rfl, rfl, rfl, rfl⟩

/-- A role name that is neither an own property of `mapping` nor a property of
`Object.prototype` is ignored by `run`. -/
theorem run_of_mapping_undefined (role : JSString) (now : Nat) (st : State)
    (h : mapping role = Member.undefined) : run role now st = Except.ok st := by
  simp [run, h]

/-- C4 at the role name `toString`: `mapping["toString"]` is the method
inherited from `Object.prototype`, so `run` does not return early; it calls
the method, stores its answer in the output and records the run.  The role
names `Assessor` and `GeniusRemix` are ignored. -/
theorem run_toString_not_ignored :
    run (lit "toString") 7 State.init =
      Except.ok ⟨[], Value.str (lit "[object Undefined]"),
        [⟨lit "toString", [], Value.str (lit "[object Undefined]"), 7⟩]⟩ ∧
    run (lit "toString") 7 State.init ≠ Except.ok State.init ∧
    run (lit "constructor") 7 ⟨lit "idea", Value.str [], []⟩ =
      Except.ok ⟨lit "idea", Value.strObj (lit "idea"),
        [⟨lit "constructor", lit "idea", Value.strObj (lit "idea"), 7⟩]⟩ ∧
    (∀ st, run (lit "Assessor") 7 st = Except.ok st) ∧
    (∀ st, run (lit "GeniusRemix") 7 st = Except.ok st) := by
  refine ⟨rfl, ?_, rfl, fun st => run_of_mapping_undefined _ _ _ (by rfl),
    fun st => run_of_mapping_undefined _ _ _ (by rfl)⟩
  intro h
  have h1 : run (lit "toString") 7 State.init =
      Except.ok ⟨[], Value.str (lit "[object Undefined]"),
        [⟨lit "toString", [], Value.str (lit "[object Undefined]"), 7⟩]⟩ := rfl
  rw [h1] at h
  simp [State.init] at h

/-- C2 on one `runAssess` and on 21 `runAssess` runs from the initial state. -/
theorem record_spec_witness :
    (entryOf State.init (Action.runAssess 0)).isSome ∧
    State.init.history = [] ∧ twentyOneRuns.length = 21 ∧
    (step State.init (Action.runAssess 0)).history =
      [⟨lit "Assessor", [], Value.str (lit "Score: 0\nEmpty"), 0⟩] ∧
    (exec State.init twentyOneRuns).history.length = 20 ∧
    (exec State.init twentyOneRuns).history.head? =
      some ⟨lit "Assessor", [], Value.str (lit "Score: 0\nEmpty"), 21⟩ ∧
    (exec State.init twentyOneRuns).history =
      (twentyOneRuns.tail.filterMap (entryOf State.init)).reverse :=
  have h := record_spec State.init (Action.runAssess 0) _ rfl
    State.init twentyOneRuns rfl rfl (by decide)
  ⟨rfl, rfl, rfl, h.1.1, h.2.1, h.2.2.1, h.2.2.2⟩

/-! ## The normaliser -/

theorem trim_eq (s : JSString) : trim s = (s.dropWhile isWs).rdropWhile isWs := rfl

theorem trim_head (s : JSString) (c : Nat) (h : (trim s).head? = some c) : isWs c = false := by
  rw [trim_eq] at h
  obtain ⟨r, hr⟩ := List.rdropWhile_prefix isWs (l := s.dropWhile isWs)
  have h2 : (s.dropWhile isWs).head? = some c := by
    rw [← hr]
    cases hx : List.rdropWhile isWs (List.dropWhile isWs s) with
    | nil => rw [hx] at h; cases h
    | cons x xs => rw [hx] at h; simpa using h
  have h3 := List.head?_dropWhile_not isWs s
  rw [h2] at h3
  simpa using h3

theorem trim_getLast (s : JSString) (c : Nat) (h : (trim s).getLast? = some c) :
    isWs c = false := by
  rw [trim_eq] at h
  have hne : List.rdropWhile isWs (s.dropWhile isWs) ≠ [] := by
    intro h0; rw [h0] at h; cases h
  have h1 := List.rdropWhile_last_not isWs (s.dropWhile isWs) hne
  rw [List.getLast?_eq_getLast _ hne] at h
  cases h
  simpa using h1

theorem replaceWsAux_ws (b : Bool) (t : JSString) :
    ∀ c ∈ replaceWsAux b t, isWs c = true → c = 0x20 := by
  induction t generalizing b with
  | nil => simp [replaceWsAux]
  | cons x xs ih =>
    intro c hc hw
    simp only [replaceWsAux] at hc
    split at hc
    · split at hc
      · exact ih _ c hc hw
      · rcases List.mem_cons.mp hc with h | h
        · exact h
        · exact ih _ c h hw
    · next hx =>
      rcases List.mem_cons.mp hc with h | h
      · subst h; exact absurd hw hx
      · exact ih _ c h hw

theorem replaceWsAux_chain (b : Bool) (t : JSString) :
    (replaceWsAux b t).Chain' NoWsPair ∧
      (b = true → ∀ c, (replaceWsAux b t).head? = some c → isWs c = false) := by
  induction t generalizing b with
  | nil => simp [replaceWsAux]
  | cons x xs ih =>
    simp only [replaceWsAux]
    by_cases hx : isWs x = true
    · simp only [hx, if_true]
      cases b with
      | true => simpa using ih true
      | false =>
        refine ⟨?_, by simp⟩
        simp only [Bool.false_eq_true, if_false]
        rw [List.chain'_cons']
        refine ⟨fun y hy => ?_, (ih true).1⟩
        have := (ih true).2 rfl y hy
        simp [NoWsPair, this]
    · have hx1 : isWs x = false := by simpa using hx
      simp only [hx1, Bool.false_eq_true, if_false]
      refine ⟨?_, fun _ c hc => ?_⟩
      · rw [List.chain'_cons']
        exact ⟨fun y _ => by simp [NoWsPair, hx], (ih false).1⟩
      · simp only [List.head?_cons, Option.some.injEq] at hc
        subst hc
        simpa using hx

theorem replaceWsAux_head (t : JSString) (h : ∀ c, t.head? = some c → isWs c = false) :
    ∀ c, (replaceWsAux false t).head? = some c → isWs c = false := by
  cases t with
  | nil => simp [replaceWsAux]
  | cons x xs =>
    have hx := h x rfl
    intro c hc
    simp only [replaceWsAux, hx, Bool.false_eq_true, if_false, List.head?_cons,
      Option.some.injEq] at hc
    subst hc
    exact hx

theorem replaceWsAux_concat (b : Bool) (t : JSString) (c : Nat) (hc : isWs c = false) :
    replaceWsAux b (t ++ [c]) = replaceWsAux b t ++ [c] := by
  induction t generalizing b with
  | nil => simp [replaceWsAux, hc]
  | cons x xs ih =>
    simp only [List.cons_append, replaceWsAux]
    split
    · split <;> simp [ih]
    · simp [ih]

theorem replaceWsAux_getLast (t : JSString) (h : ∀ c, t.getLast? = some c → isWs c = false) :
    ∀ c, (replaceWsAux false t).getLast? = some c → isWs c = false := by
  induction t using List.reverseRecOn with
  | nil => simp [replaceWsAux]
  | append_singleton l x =>
    have hx := h x (by simp)
    intro c hc
    rw [replaceWsAux_concat false l x hx] at hc
    simp only [List.getLast?_append, List.getLast?_singleton] at hc
    cases hc
    exact hx

theorem sanitize_normalized (s : JSString) : Normalized (sanitize s) :=
  ⟨replaceWsAux_head _ (trim_head s), replaceWsAux_getLast _ (trim_getLast s),
    (replaceWsAux_chain false _).1, replaceWsAux_ws false _⟩

theorem noWsPair_of_chain (t l r : JSString) (a b : Nat) (hc : t.Chain' NoWsPair)
    (h : t = l ++ a :: b :: r) : ¬(isWs a = true ∧ isWs b = true) := by
  subst h
  exact (List.chain'_split.mp hc).2.rel_head

/-- C5: for every string `s`, `sanitize s` does not start with a whitespace
character, does not end with one, and has no two whitespace characters in a
row; every whitespace character left in it is one ASCII space standing
between two characters that are not whitespace. -/
theorem sanitize_shape (s : JSString) :
    (∀ c, (sanitize s).head? = some c → isWs c = false) ∧
    (∀ c, (sanitize s).getLast? = some c → isWs c = false) ∧
    (∀ l a b r, sanitize s = l ++ a :: b :: r → ¬(isWs a = true ∧ isWs b = true)) ∧
    (∀ l c r, sanitize s = l ++ c :: r → isWs c = true →
      c = 0x20 ∧ (∃ l1 a, l = l1 ++ [a] ∧ isWs a = false) ∧
        (∃ b r1, r = b :: r1 ∧ isWs b = false)) := by
  obtain ⟨hhead, hlast, hchain, hws⟩ := sanitize_normalized s
  have hpair : ∀ l a b r, sanitize s = l ++ a :: b :: r → ¬(isWs a = true ∧ isWs b = true) :=
    fun l a b r h => noWsPair_of_chain _ l r a b hchain h
  refine ⟨hhead, hlast, hpair, ?_⟩
  intro l c r h hc
  refine ⟨hws c (by rw [h]; simp) hc, ?_, ?_⟩
  · rcases List.eq_nil_or_concat l with hl | ⟨l1, a, hl⟩
    · subst hl
      have := hhead c (by rw [h]; rfl)
      rw [hc] at this; cases this
    · rw [List.concat_eq_append] at hl
      subst hl
      refine ⟨l1, a, rfl, ?_⟩
      have := hpair l1 a c r (by rw [h]; simp)
      simpa [hc] using this
  · cases r with
    | nil =>
      have := hlast c (by rw [h]; simp)
      rw [hc] at this; cases this
    | cons b r1 =>
      refine ⟨b, r1, rfl, ?_⟩
      have := hpair l c b r1 h
      simpa [hc] using this

theorem replaceWsAux_fixed (t : JSString) (hchain : t.Chain' NoWsPair)
    (hws : ∀ c ∈ t, isWs c = true → c = 0x20) :
    replaceWsAux false t = t ∧
      ((∀ c, t.head? = some c → isWs c = false) → replaceWsAux true t = t) := by
  induction t with
  | nil => simp [replaceWsAux]
  | cons x xs ih =>
    have ih1 := ih (List.Chain'.tail hchain) fun c hc => hws c (List.mem_cons_of_mem x hc)
    by_cases hx : isWs x = true
    · have hx32 : x = 0x20 := hws x (List.mem_cons_self x xs) hx
      have hnext : ∀ c, xs.head? = some c → isWs c = false := by
        intro c hc
        have := List.Chain'.rel_head? hchain hc
        simpa [NoWsPair, hx] using this
      refine ⟨?_, fun h => ?_⟩
      · simp only [replaceWsAux, hx, if_true, Bool.false_eq_true, if_false]
        rw [ih1.2 hnext, hx32]
      · have := h x rfl
        rw [hx] at this; cases this
    · have hx1 : isWs x = false := by simpa using hx
      simp only [replaceWsAux, hx1, Bool.false_eq_true, if_false, ih1.1]
      simp

theorem sanitize_of_normalized (t : JSString) (h : Normalized t) : sanitize t = t := by
  obtain ⟨hhead, hlast, hchain, hws⟩ := h
  have h1 : t.dropWhile isWs = t := by
    rw [List.dropWhile_eq_self_iff]
    intro hl
    cases t with
    | nil => simp at hl
    | cons x xs => simpa using hhead x rfl
  have h2 : t.rdropWhile isWs = t := by
    rw [List.rdropWhile_eq_self_iff]
    intro hl
    have := hlast _ (List.getLast?_eq_getLast t hl)
    simpa using this
  rw [sanitize, trim_eq, h1, h2]
  exact (replaceWsAux_fixed t hchain hws).1

theorem sanitize_sanitize (s : JSString) : sanitize (sanitize s) = sanitize s :=
  sanitize_of_normalized _ (sanitize_normalized s)

/-- C6: `sanitize` is idempotent. -/
theorem sanitize_idempotent (s : JSString) : sanitize (sanitize s) = sanitize s :=
  sanitize_of_normalized (sanitize s) (sanitize_normalized s)

/-! ## Blank input -/

theorem sanitize_of_blank (input : JSString) (h : ∀ c ∈ input, isWs c = true) :
    sanitize input = [] := by
  have h1 : input.dropWhile isWs = [] := List.dropWhile_eq_nil_iff.mpr h
  simp [sanitize, trim, h1, replaceWs, replaceWsAux]

/-- C7: for an input that is empty or made of whitespace characters only,
`Promptor`, `Coder`, `Reviewer` and `FactChecker` return their fixed fallback
strings. -/
theorem fallback_of_blank (input : JSString) (h : ∀ c ∈ input, isWs c = true) :
    Promptor input = lit "Provide a short idea to start." ∧
    Coder input = lit "No idea to code." ∧
    Reviewer input = lit "Nothing to review." ∧
    FactChecker input = lit "Nothing to check." := by
  have hs := sanitize_of_blank input h
  simp [Promptor, Coder, Reviewer, FactChecker, hs, toLowerCase]

/-- C7 on the empty string and on a string of a space, a tab, a line feed and a
no-break space. -/
theorem fallback_of_blank_witness :
    (Promptor [] = lit "Provide a short idea to start." ∧
      Coder [] = lit "No idea to code." ∧
      Reviewer [] = lit "Nothing to review." ∧
      FactChecker [] = lit "Nothing to check.") ∧
    (∀ c ∈ [0x20, 0x09, 0x0A, 0xA0], isWs c = true) ∧
    Promptor [0x20, 0x09, 0x0A, 0xA0] = lit "Provide a short idea to start." ∧
    Coder [0x20, 0x09, 0x0A, 0xA0] = lit "No idea to code." ∧
    Reviewer [0x20, 0x09, 0x0A, 0xA0] = lit "Nothing to review." ∧
    FactChecker [0x20, 0x09, 0x0A, 0xA0] = lit "Nothing to check." :=
  ⟨fallback_of_blank [] (by decide), by decide,
    fallback_of_blank [0x20, 0x09, 0x0A, 0xA0] (by decide)⟩

/-- C9: for an input that is empty or made of whitespace characters only,
`Assessor` returns the score 0 and the note "Empty". -/
theorem assessor_of_blank (input : JSString) (h : ∀ c ∈ input, isWs c = true) :
    Assessor input = ⟨0, lit "Empty"⟩ := by
  simp [Assessor, sanitize_of_blank input h]

/-- C9 on the empty string and on a string of two spaces and a line feed. -/
theorem assessor_of_blank_witness :
    Assessor [] = ⟨0, lit "Empty"⟩ ∧
    (∀ c ∈ [0x20, 0x20, 0x0A], isWs c = true) ∧
    Assessor [0x20, 0x20, 0x0A] = ⟨0, lit "Empty"⟩ :=
  ⟨assessor_of_blank [] (by decide), by decide, assessor_of_blank [0x20, 0x20, 0x0A] (by decide)⟩

/-! ## The score of `Assessor` -/

theorem Dbl.bitsAux_bounds (fuel n : Nat) (h : n ≤ fuel) (hn : n ≠ 0) :
    2 ^ (Dbl.bitsAux fuel n - 1) ≤ n ∧ n < 2 ^ Dbl.bitsAux fuel n := by
  induction fuel generalizing n with
  | zero => omega
  | succ fuel ih =>
    simp only [Dbl.bitsAux, hn, if_false, Nat.add_sub_cancel]
    by_cases h2 : n / 2 = 0
    · have h1 : n = 1 := by omega
      subst h1
      cases fuel <;> simp [Dbl.bitsAux]
    · obtain ⟨hlo, hhi⟩ := ih (n / 2) (by omega) h2
      have hpos : Dbl.bitsAux fuel (n / 2) ≠ 0 := by
        intro h0
        rw [h0] at hhi
        omega
      obtain ⟨b, hb⟩ := Nat.exists_eq_succ_of_ne_zero hpos
      rw [hb] at hlo hhi ⊢
      simp only [Nat.succ_eq_add_one, Nat.add_sub_cancel] at hlo
      rw [Nat.pow_succ] at hhi ⊢
      rw [Nat.pow_succ]
      constructor <;> omega

theorem Dbl.bits_bounds (n : Nat) (hn : n ≠ 0) :
    2 ^ (Dbl.bits n - 1) ≤ n ∧ n < 2 ^ Dbl.bits n :=
  Dbl.bitsAux_bounds n n (Nat.le_refl n) hn

theorem Dbl.one_le_round53 (m : Nat) (hm : 2 ^ 62 ≤ m) :
    Dbl.le (Dbl.ofNat 1) (Dbl.round53 m (-62)) = true := by
  have hm0 : m ≠ 0 := by
    have : 0 < 2 ^ 62 := Nat.pos_pow_of_pos 62 (by decide)
    omega
  obtain ⟨hlo, hhi⟩ := Dbl.bits_bounds m hm0
  have hbits : 63 ≤ Dbl.bits m := by
    have h1 : 2 ^ 62 < 2 ^ Dbl.bits m := Nat.lt_of_le_of_lt hm hhi
    have := (Nat.pow_lt_pow_iff_right (by decide : 1 < 2)).mp h1
    omega
  have hbig : ¬ m < 2 ^ 53 := by
    have : 2 ^ 53 ≤ 2 ^ 62 := Nat.pow_le_pow_right (by decide) (by decide)
    omega
  have hq : 2 ^ 52 ≤ m / 2 ^ (Dbl.bits m - 53) := by
    have h1 : 2 ^ (Dbl.bits m - 1) / 2 ^ (Dbl.bits m - 53) ≤ m / 2 ^ (Dbl.bits m - 53) :=
      Nat.div_le_div_right hlo
    rw [Nat.pow_div (by omega) (by decide)] at h1
    have h2 : Dbl.bits m - 1 - (Dbl.bits m - 53) = 52 := by omega
    rw [h2] at h1
    exact h1
  simp only [Dbl.round53, hbig, if_false, Dbl.le, Dbl.ofNat, decide_eq_true_eq]
  have hk10 : 10 ≤ Dbl.bits m - 53 := by omega
  generalize Dbl.bits m - 53 = k at hq hk10 ⊢
  generalize hq1 : (if 2 ^ (k - 1) < m % 2 ^ k ∨ m % 2 ^ k = 2 ^ (k - 1) ∧ m / 2 ^ k % 2 = 1
    then m / 2 ^ k + 1 else m / 2 ^ k) = q1
  have hq1le : 2 ^ 52 ≤ q1 := by
    rw [← hq1]; split <;> omega
  by_cases hk : 62 ≤ k
  · have e1 : Min.min (0 : Int) (-62 + (k : Int)) = 0 := by omega
    rw [e1]
    simp only [Int.sub_zero, Int.toNat_zero, Nat.pow_zero, Nat.mul_one]
    have : 0 < 2 ^ (-62 + (k : Int)).toNat := Nat.pos_pow_of_pos _ (by decide)
    have h52 : 0 < 2 ^ 52 := Nat.pos_pow_of_pos _ (by decide)
    exact Nat.mul_pos (by omega) this
  · have e1 : Min.min (0 : Int) (-62 + (k : Int)) = -62 + (k : Int) := by omega
    rw [e1]
    have e2 : ((0 : Int) - (-62 + (k : Int))).toNat = 62 - k := by omega
    rw [e2]
    simp only [Int.sub_self, Int.toNat_zero, Nat.pow_zero, Nat.mul_one, Nat.one_mul]
    have : 2 ^ (62 - k) ≤ 2 ^ 52 := Nat.pow_le_pow_right (by decide) (by omega)
    omega

theorem isWs_of_isWord (c : Nat) (h : isWord c = true) : isWs c = false := by
  simp only [isWord, Bool.or_eq_true, Bool.and_eq_true, decide_eq_true_eq, beq_iff_eq] at h
  cases hw : isWs c with
  | false => rfl
  | true =>
    simp only [isWs, Bool.or_eq_true, Bool.and_eq_true, decide_eq_true_eq, beq_iff_eq] at hw
    omega

/-- The test `/\w+\s+\w+/` succeeds exactly on the strings in which a word
character, a non-empty run of whitespace and a word character follow one
another. -/
theorem testWordWsWord_iff (t : JSString) :
    testWordWsWord t = true ↔
      ∃ l a g b r, t = l ++ a :: (g ++ b :: r) ∧ isWord a = true ∧ g ≠ [] ∧
        (∀ c ∈ g, isWs c = true) ∧ isWord b = true := by
  induction t with
  | nil => simp [testWordWsWord]
  | cons x xs ih =>
    simp only [testWordWsWord, Bool.or_eq_true, Bool.and_eq_true, decide_eq_true_eq]
    constructor
    · rintro (⟨⟨hx, hlen⟩, hd⟩ | h)
      · have hsplit := List.takeWhile_append_dropWhile isWs xs
        cases hdw : xs.dropWhile isWs with
        | nil => rw [hdw] at hd; cases hd
        | cons d r =>
          rw [hdw] at hd hsplit hlen
          refine ⟨[], x, xs.takeWhile isWs, d, r, by simp [hsplit], hx, ?_, ?_, hd⟩
          · intro h0
            rw [h0] at hsplit
            rw [← hsplit] at hlen
            simp at hlen
          · intro c hc
            exact (List.mem_takeWhile_imp hc)
      · obtain ⟨l, a, g, b, r, ht, ha, hg, hws, hb⟩ := ih.mp h
        exact ⟨x :: l, a, g, b, r, by simp [ht], ha, hg, hws, hb⟩
    · rintro ⟨l, a, g, b, r, ht, ha, hg, hws, hb⟩
      cases l with
      | nil =>
        simp only [List.nil_append, List.cons.injEq] at ht
        obtain ⟨hxa, hxs⟩ := ht
        left
        have hdw : xs.dropWhile isWs = b :: r := by
          rw [hxs, List.dropWhile_append_of_pos hws,
            List.dropWhile_cons_of_neg (by simp [isWs_of_isWord b hb])]
        rw [hdw]
        refine ⟨⟨hxa ▸ ha, ?_⟩, hb⟩
        rw [hxs]
        have : 0 < g.length := List.length_pos.mpr hg
        simp
        omega
      | cons y l1 =>
        simp only [List.cons_append, List.cons.injEq] at ht
        right
        exact ih.mpr ⟨l1, a, g, b, r, ht.2, ha, hg, hws, hb⟩

theorem Dbl.lenFactor_of_long (n : Nat) (hn : 120 ≤ n) :
    Dbl.min (Dbl.ofNat 1) (Dbl.ofRat n 120) = Dbl.ofNat 1 := by
  have hb : Dbl.bits 120 = 7 := by decide
  have hn0 : n ≠ 0 := by omega
  have hle : Dbl.le (Dbl.ofNat 1) (Dbl.ofRat n 120) = true := by
    simp only [Dbl.ofRat, hn0, if_false, hb]
    have hx : 2 ^ 61 ≤ n * 2 ^ (54 + 7) / 120 := by
      rw [Nat.le_div_iff_mul_le (by decide)]
      have : 2 ^ 61 * 120 = 120 * 2 ^ (54 + 7) := by norm_num
      rw [this]
      exact Nat.mul_le_mul_right _ hn
    have he : (-(((54 + 7 : Nat) : Int) + 1)) = -62 := by norm_num
    rw [he]
    apply Dbl.one_le_round53
    have : (2 : Nat) ^ 62 = 2 * 2 ^ 61 := by norm_num
    omega
  simp [Dbl.min, hle]

set_option maxRecDepth 100000 in
/-- The score of an input whose normalised form has at least 120 characters and
passes the two-word test: the length factor is 1 and the clarity is 0.6. -/
theorem Dbl.score_long_clear :
    Dbl.round (Dbl.mul (Dbl.add (Dbl.mul (Dbl.ofRat 5 10) (Dbl.ofNat 1))
      (Dbl.mul (Dbl.ofRat 5 10) (Dbl.ofRat 6 10))) (Dbl.ofNat 100)) = 80 := by
  decide

/-- C8 as amended: for an input whose normalised form has at least 120
characters and contains a word character, whitespace and a word character
in a row, `Assessor` returns the score 80 and the note "Ready for demo". -/
theorem assessor_of_long_clear (input : JSString) (hlen : 120 ≤ (sanitize input).length)
    (hclear : testWordWsWord (sanitize input) = true) :
    Assessor input = ⟨80, lit "Ready for demo"⟩ := by
  have hne : sanitize input ≠ [] := by
    intro h; rw [h] at hlen; simp at hlen
  simp only [Assessor, hne, if_false, hclear, if_true, Dbl.lenFactor_of_long _ hlen,
    Dbl.score_long_clear]
  rfl

set_option maxRecDepth 100000 in
theorem longIdea_facts :
    sanitize longIdea = longIdea ∧ longIdea.length = 120 ∧
      testWordWsWord longIdea = true := by
  decide

/-- C8 as amended, on an input of exactly 120 characters. -/
theorem assessor_of_long_clear_witness :
    120 ≤ (sanitize longIdea).length ∧ testWordWsWord (sanitize longIdea) = true ∧
      Assessor longIdea = ⟨80, lit "Ready for demo"⟩ :=
  have h1 : 120 ≤ (sanitize longIdea).length := by
    rw [longIdea_facts.1, longIdea_facts.2.1]
  have h2 : testWordWsWord (sanitize longIdea) = true := by
    rw [longIdea_facts.1]; exact longIdea_facts.2.2
  ⟨h1, h2, assessor_of_long_clear longIdea h1 h2⟩

/-- C8 as stated fails: the normalised form of `longIdea` has 120 characters
and two words separated by a space, and its score is 80, not 100. -/
theorem assessor_long_not_hundred :
    120 ≤ (sanitize longIdea).length ∧ testWordWsWord (sanitize longIdea) = true ∧
      (Assessor longIdea).score = 80 ∧ (Assessor longIdea).score ≠ 100 := by
  have h1 : 120 ≤ (sanitize longIdea).length := by
    rw [longIdea_facts.1, longIdea_facts.2.1]
  have h2 : testWordWsWord (sanitize longIdea) = true := by
    rw [longIdea_facts.1]; exact longIdea_facts.2.2
  have h3 : Assessor longIdea = ⟨80, lit "Ready for demo"⟩ := by
    have hne : sanitize longIdea ≠ [] := by
      intro h; rw [h] at h1; simp at h1
    simp only [Assessor, hne, if_false, h2, if_true, Dbl.lenFactor_of_long _ h1,
      Dbl.score_long_clear]
    rfl
  rw [h3]
  exact ⟨h1, h2, rfl, by decide⟩

/-! ## The one-liner of `GeniusRemix` -/

theorem split_ne_nil (sep : Nat) (t : JSString) : split sep t ≠ [] := by
  cases t with
  | nil => simp [split]
  | cons c cs =>
    simp only [split]
    split
    · simp
    · split <;> simp

theorem intercalate_cons_cons (sep x y : JSString) (ys : List JSString) :
    List.intercalate sep (x :: y :: ys) = x ++ sep ++ List.intercalate sep (y :: ys) := by
  simp [List.intercalate, List.intersperse]

theorem join_split (sep : Nat) (t : JSString) : join [sep] (split sep t) = t := by
  induction t with
  | nil => simp [split, join, List.intercalate]
  | cons c cs ih =>
    simp only [split]
    split
    · next h =>
      obtain ⟨y, ys, hy⟩ := List.exists_cons_of_ne_nil (split_ne_nil sep cs)
      rw [hy] at ih ⊢
      simp only [join] at ih ⊢
      rw [intercalate_cons_cons, ih, h]
      rfl
    · split
      · next t ts hts =>
        rw [hts] at ih
        simp only [join] at ih ⊢
        cases ts with
        | nil =>
          simp only [List.intercalate, List.intersperse, List.flatten] at ih ⊢
          simpa using ih
        | cons u us =>
          rw [intercalate_cons_cons] at ih ⊢
          simp [← ih]
      · next h => exact absurd h (split_ne_nil sep cs)

theorem mem_of_mem_split (sep : Nat) (t w : JSString) (hw : w ∈ split sep t) :
    ∀ c ∈ w, c ∈ t ∧ c ≠ sep := by
  induction t generalizing w with
  | nil =>
    simp only [split, List.mem_singleton] at hw
    subst hw
    simp
  | cons x xs ih =>
    simp only [split] at hw
    split at hw
    · rcases List.mem_cons.mp hw with h | h
      · subst h; simp
      · intro c hc
        exact ⟨List.mem_cons_of_mem x (ih w h c hc).1, (ih w h c hc).2⟩
    · next hx =>
      split at hw
      · next t ts hts =>
        rcases List.mem_cons.mp hw with h | h
        · subst h
          intro c hc
          rcases List.mem_cons.mp hc with h1 | h1
          · subst h1; exact ⟨List.mem_cons_self _ _, hx⟩
          · have := ih t (by rw [hts]; exact List.mem_cons_self _ _) c h1
            exact ⟨List.mem_cons_of_mem x this.1, this.2⟩
        · intro c hc
          have := ih w (by rw [hts]; exact List.mem_cons_of_mem _ h) c hc
          exact ⟨List.mem_cons_of_mem x this.1, this.2⟩
      · next h => exact absurd h (split_ne_nil sep xs)

theorem split_pieces_ne_nil (t : JSString) (hne : t ≠ [])
    (hlast : ∀ c, t.getLast? = some c → isWs c = false) (hchain : t.Chain' NoWsPair) :
    (∀ w ∈ (split 0x20 t).tail, w ≠ []) ∧
      ((∀ c, t.head? = some c → isWs c = false) → ∀ w ∈ split 0x20 t, w ≠ []) := by
  induction t with
  | nil => exact absurd rfl hne
  | cons x xs ih =>
    have hxs : xs ≠ [] →
        (∀ w ∈ (split 0x20 xs).tail, w ≠ []) ∧
          ((∀ c, xs.head? = some c → isWs c = false) → ∀ w ∈ split 0x20 xs, w ≠ []) :=
      fun h => ih h (fun c hc => hlast c (by
        rw [List.getLast?_cons, hc]; rfl)) (List.Chain'.tail hchain)
    by_cases hx : x = 0x20
    · subst hx
      have hne1 : xs ≠ [] := by
        intro h
        subst h
        have := hlast 0x20 rfl
        simp [isWs] at this
      have hhead : ∀ c, xs.head? = some c → isWs c = false := by
        intro c hc
        have := List.Chain'.rel_head? hchain hc
        simpa [NoWsPair, isWs] using this
      have hall := (hxs hne1).2 hhead
      refine ⟨by simpa [split] using hall, fun h => ?_⟩
      have := h 0x20 rfl
      simp [isWs] at this
    · have hsplit : ∃ w ws, split 0x20 xs = w :: ws ∧
          split 0x20 (x :: xs) = (x :: w) :: ws := by
        obtain ⟨w, ws, hw⟩ := List.exists_cons_of_ne_nil (split_ne_nil 0x20 xs)
        exact ⟨w, ws, hw, by simp [split, hx, hw]⟩
      obtain ⟨w, ws, hw, hsp⟩ := hsplit
      have htail : ∀ u ∈ ws, u ≠ [] := by
        by_cases hne1 : xs = []
        · subst hne1
          simp only [split, List.cons.injEq] at hw
          rw [← hw.2]
          simp
        · have := (hxs hne1).1
          rw [hw] at this
          simpa using this
      rw [hsp]
      refine ⟨by simpa using htail, fun _ u hu => ?_⟩
      rcases List.mem_cons.mp hu with h | h
      · rw [h]; simp
      · exact htail u h

/-- C10: when the normalised input `s` is not empty, splitting it at the
spaces gives its words (no word is empty or contains whitespace, and the
words joined by single spaces are `s`); the one-liner is the first 6 words
joined by single spaces, followed by "..." exactly when there are more than
6 words, so it is `s` itself for at most 6 words; the tweet is the one-liner
followed by " — demo + repo in bio. #buildinpublic" and the blurb starts
with the one-liner. -/
theorem oneLiner_spec (input : JSString) (hne : sanitize input ≠ []) :
    (∀ w ∈ split 0x20 (sanitize input), w ≠ [] ∧ ∀ c ∈ w, isWs c = false) ∧
    join (lit " ") (split 0x20 (sanitize input)) = sanitize input ∧
    oneLiner input = join (lit " ") ((split 0x20 (sanitize input)).take 6) ++
      (if 6 < (split 0x20 (sanitize input)).length then lit "..." else []) ∧
    ((split 0x20 (sanitize input)).length ≤ 6 → oneLiner input = sanitize input) ∧
    (GeniusRemix input).tweet = oneLiner input ++ lit " — demo + repo in bio. #buildinpublic" ∧
    oneLiner input <+: (GeniusRemix input).blurb := by
  obtain ⟨hhead, hlast, hchain, hws⟩ := sanitize_normalized input
  have hjoin : join (lit " ") (split 0x20 (sanitize input)) = sanitize input :=
    join_split 0x20 (sanitize input)
  have hone : oneLiner input = join (lit " ") ((split 0x20 (sanitize input)).take 6) ++
      (if 6 < (split 0x20 (sanitize input)).length then lit "..." else []) := by
    simp only [oneLiner, hne, ne_eq, not_false_eq_true, if_true]
    rfl
  refine ⟨fun w hw => ⟨?_, fun c hc => ?_⟩, hjoin, hone, fun hle => ?_, rfl, ?_⟩
  · exact (split_pieces_ne_nil _ hne hlast hchain).2 hhead w hw
  · obtain ⟨hmem, hsp⟩ := mem_of_mem_split 0x20 _ w hw c hc
    cases hcw : isWs c with
    | false => rfl
    | true => exact absurd (hws c hmem hcw) hsp
  · rw [hone, List.take_of_length_le hle, hjoin, if_neg (by omega), List.append_nil]
  · exact ⟨_, rfl⟩

/-- C10 on "build an email scheduler that removes back and forth": nine
words, and the one-liner is "build an email scheduler that removes...". -/
theorem oneLiner_spec_witness :
    sanitize schedulerIdea ≠ [] ∧
    (split 0x20 (sanitize schedulerIdea)).length = 9 ∧
    oneLiner schedulerIdea = lit "build an email scheduler that removes..." ∧
    (GeniusRemix schedulerIdea).tweet =
      lit "build an email scheduler that removes... — demo + repo in bio. #buildinpublic" ∧
    oneLiner schedulerIdea <+: (GeniusRemix schedulerIdea).blurb :=
  have hne : sanitize schedulerIdea ≠ [] := by decide
  have h := oneLiner_spec schedulerIdea hne
  ⟨hne, by decide, by decide, by decide, h.2.2.2.2.2⟩


/-! ## The commit string of `GeniusRemix` -/

theorem replaceNonWordAux_chars (b : Bool) (t : JSString) :
    ∀ c ∈ replaceNonWordAux b t, c = 0x2D ∨ isWord c = true := by
  induction t generalizing b with
  | nil => simp [replaceNonWordAux]
  | cons x xs ih =>
    intro c hc
    simp only [replaceNonWordAux] at hc
    split at hc
    · next hx =>
      rcases List.mem_cons.mp hc with h | h
      · subst h; exact Or.inr hx
      · exact ih _ c h
    · split at hc
      · exact ih _ c hc
      · rcases List.mem_cons.mp hc with h | h
        · exact Or.inl h
        · exact ih _ c h

theorem lowerUnit_slug (x : Nat) (hx : x = 0x2D ∨ isWord x = true) :
    ∀ c ∈ lowerUnit x, c = 0x2D ∨ (isWord c = true ∧ isUpperAZ c = false) := by
  intro c hc
  simp only [isWord, Bool.or_eq_true, Bool.and_eq_true, decide_eq_true_eq, beq_iff_eq] at hx
  simp only [lowerUnit] at hc
  simp only [isWord, isUpperAZ, Bool.or_eq_true, Bool.and_eq_true, decide_eq_true_eq,
    beq_iff_eq, Bool.and_eq_false_iff, decide_eq_false_iff_not]
  split at hc
  · simp only [List.mem_singleton] at hc
    omega
  · split at hc
    · omega
    · split at hc
      · omega
      · simp only [List.mem_singleton] at hc
        omega

theorem toLowerCase_slug (t : JSString) (ht : ∀ c ∈ t, c = 0x2D ∨ isWord c = true) :
    ∀ c ∈ toLowerCase t, c = 0x2D ∨ (isWord c = true ∧ isUpperAZ c = false) := by
  induction t with
  | nil => simp [toLowerCase]
  | cons x xs ih =>
    intro c hc
    simp only [toLowerCase, List.mem_append] at hc
    rcases hc with h | h
    · exact lowerUnit_slug x (ht x (List.mem_cons_self x xs)) c h
    · exact ih (fun d hd => ht d (List.mem_cons_of_mem x hd)) c h

/-- C11 as amended: for every input the commit string is the fixed prefix
"feat: prototype " followed by a slug in which every character is a hyphen or
a word character that is not an upper-case letter; the slug has no space. -/
theorem commit_slug (input : JSString) :
    ∃ slug, (GeniusRemix input).commit = lit "feat: prototype " ++ slug ∧
      slug = toLowerCase (replaceNonWord (oneLiner input)) ∧
      (∀ c ∈ slug, c = 0x2D ∨ (isWord c = true ∧ isUpperAZ c = false)) ∧
      0x20 ∉ slug :=
  have h := toLowerCase_slug _ (replaceNonWordAux_chars false (oneLiner input))
  ⟨_, rfl, rfl, h, fun hmem => by
    rcases h 0x20 hmem with h1 | h1
    · exact absurd h1 (by decide)
    · exact absurd h1.1 (by decide)⟩

/-- C11 as stated fails on "build an email scheduler that removes back and
forth": the commit string is "feat: prototype
build-an-email-scheduler-that-removes-", which has a colon and two spaces. -/
theorem commit_has_space :
    (GeniusRemix schedulerIdea).commit =
      lit "feat: prototype build-an-email-scheduler-that-removes-" ∧
    0x20 ∈ (GeniusRemix schedulerIdea).commit ∧ 0x3A ∈ (GeniusRemix schedulerIdea).commit ∧
    ¬(0x20 = 0x2D ∨ isWord 0x20 = true) ∧ ¬(0x3A = 0x2D ∨ isWord 0x3A = true) := by
  decide


/-! ## The dispatcher and the two dedicated entry points -/

/-- The state `run` leaves for a simple role whose function is `f`. -/
theorem run_of_own (role : JSString) (f : JSString → JSString) (now : Nat) (st : State)
    (h : mapping role = Member.own f) :
    run role now st = Except.ok
      { input := st.input
        out := Value.str (f st.input)
        history := record ⟨role, st.input, Value.str (f st.input), now⟩ st.history } := by
  simp [run, h, call]

/-- C13: for each of the five simple roles, `run` leaves the input as it
was, replaces the output by the role's result on the input, and makes the
record of the role name, the input, that result and the time the first element
of the history, in front of the first 19 old records. -/
theorem run_simple_role (st : State) (now : Nat) (r : SimpleRole) :
    mapping r.name = Member.own r.fn ∧
    ∃ st1, run r.name now st = Except.ok st1 ∧ step st (Action.run r.name now) = st1 ∧
      st1.input = st.input ∧ st1.out = Value.str (r.fn st.input) ∧
      st1.history.head? = some ⟨r.name, st.input, Value.str (r.fn st.input), now⟩ ∧
      st1.history = ⟨r.name, st.input, st1.out, now⟩ :: st.history.take 19 := by
  have hmap : mapping r.name = Member.own r.fn := by
    cases r <;> rfl
  have hrun := run_of_own r.name r.fn now st hmap
  exact ⟨hmap, _, hrun, by simp [step, hrun], rfl, rfl, rfl, rfl⟩

set_option maxRecDepth 100000 in
/-- C14: `runAssess` and `remix` render the structured result into one
string, which becomes the output and the result of the new first record:
"Score: ", the score in decimal, a line feed and the note, under the role
"Assessor"; and "--- Genius Remix ---", the blurb, "Commit: " with the
commit and "Tweet: " with the tweet, under the role "GeniusRemix". -/
theorem entry_points_render (st : State) (now : Nat) :
    (runAssess now st).input = st.input ∧
    (runAssess now st).out = Value.str (lit "Score: " ++
      numberToString (Assessor st.input).score ++ lit "\n" ++ (Assessor st.input).note) ∧
    (runAssess now st).history =
      ⟨lit "Assessor", st.input, (runAssess now st).out, now⟩ :: st.history.take 19 ∧
    (remix now st).input = st.input ∧
    (remix now st).out = Value.str (lit "--- Genius Remix ---\n" ++ (GeniusRemix st.input).blurb ++
      lit "\n\nCommit: " ++ (GeniusRemix st.input).commit ++
      lit "\nTweet: " ++ (GeniusRemix st.input).tweet) ∧
    (remix now st).history =
      ⟨lit "GeniusRemix", st.input, (remix now st).out, now⟩ :: st.history.take 19 ∧
    (∀ n, n < 10 → numberToString n = [0x30 + n]) ∧
    (∀ n, 10 ≤ n → n < 100 → numberToString n = [0x30 + n / 10, 0x30 + n % 10]) ∧
    numberToString 100 = lit "100" ∧
    (runAssess 0 ⟨lit "hello world", Value.str [], []⟩).out =
      Value.str (lit "Score: 35\nNeeds iteration") := by
  refine ⟨rfl, rfl, rfl, rfl, rfl, rfl, ?_, ?_, by decide, ?_⟩
  · intro n hn
    interval_cases n <;> rfl
  · intro n h1 h2
    interval_cases n <;> rfl
  · decide


/-! ## The roles read the input through the normaliser only -/

theorem oneLiner_sanitize (s : JSString) : oneLiner (sanitize s) = oneLiner s := by
  simp only [oneLiner, sanitize_sanitize]

/-- C17: each of the seven role functions gives the same result on a string
and on its normalised form, so two inputs with the same normalised form get
the same result from every role. -/
theorem roles_factor_through_sanitize (s t : JSString) :
    (Promptor s = Promptor (sanitize s) ∧ Orchestrator s = Orchestrator (sanitize s) ∧
      Coder s = Coder (sanitize s) ∧ Reviewer s = Reviewer (sanitize s) ∧
      FactChecker s = FactChecker (sanitize s) ∧ Assessor s = Assessor (sanitize s) ∧
      GeniusRemix s = GeniusRemix (sanitize s)) ∧
    (sanitize s = sanitize t →
      Promptor s = Promptor t ∧ Orchestrator s = Orchestrator t ∧ Coder s = Coder t ∧
      Reviewer s = Reviewer t ∧ FactChecker s = FactChecker t ∧ Assessor s = Assessor t ∧
      GeniusRemix s = GeniusRemix t) := by
  have key : ∀ u : JSString,
      Promptor u = Promptor (sanitize u) ∧ Orchestrator u = Orchestrator (sanitize u) ∧
      Coder u = Coder (sanitize u) ∧ Reviewer u = Reviewer (sanitize u) ∧
      FactChecker u = FactChecker (sanitize u) ∧ Assessor u = Assessor (sanitize u) ∧
      GeniusRemix u = GeniusRemix (sanitize u) := by
    intro u
    refine ⟨?_, ?_, ?_, ?_, ?_, ?_, ?_⟩
    · simp only [Promptor, sanitize_sanitize]
    · simp only [Orchestrator, sanitize_sanitize]
    · simp only [Coder, sanitize_sanitize]
    · simp only [Reviewer, sanitize_sanitize]
    · simp only [FactChecker, sanitize_sanitize]
    · simp only [Assessor, sanitize_sanitize]
    · simp only [GeniusRemix, oneLiner_sanitize]
  refine ⟨key s, fun h => ?_⟩
  obtain ⟨a1, a2, a3, a4, a5, a6, a7⟩ := key s
  obtain ⟨b1, b2, b3, b4, b5, b6, b7⟩ := key t
  rw [a1, a2, a3, a4, a5, a6, a7, b1, b2, b3, b4, b5, b6, b7, h]
  exact ⟨rfl, rfl, rfl, rfl, rfl, rfl, rfl⟩


/-! ## `FactChecker` -/

theorem matchCI_iff (pat s : JSString) : matchCI pat s = true ↔ ContainsCI pat s := by
  induction s with
  | nil =>
    simp only [matchCI, ContainsCI, List.isEmpty_iff]
    constructor
    · intro h
      exact ⟨[], [], [], rfl, by simp [h]⟩
    · rintro ⟨l, m, r, h, hm⟩
      have hm0 : m = [] := by
        have := congrArg List.length h
        simp at this
        exact List.length_eq_zero.mp (by omega)
      rw [hm0] at hm
      simpa using hm.symm
  | cons c cs ih =>
    simp only [matchCI, Bool.or_eq_true, List.isPrefixOf_iff_prefix]
    constructor
    · rintro (⟨t, ht⟩ | h)
      · obtain ⟨m, r, hs, hm, _⟩ := List.map_eq_append_iff.mp ht.symm
        exact ⟨[], m, r, by simpa using hs, hm⟩
      · obtain ⟨l, m, r, hs, hm⟩ := ih.mp h
        exact ⟨c :: l, m, r, by simp [hs], hm⟩
    · rintro ⟨l, m, r, hs, hm⟩
      cases l with
      | nil =>
        left
        refine ⟨r.map canonicalize, ?_⟩
        rw [hs, ← hm]
        simp
      | cons x l1 =>
        right
        simp only [List.cons_append, List.cons.injEq] at hs
        exact ih.mpr ⟨l1, m, r, hs.2, hm⟩


theorem not_containsCI_nil (pat : JSString) (hp : pat ≠ []) : ¬ContainsCI pat [] := by
  intro h
  have := (matchCI_iff pat []).mpr h
  simp only [matchCI, List.isEmpty_iff] at this
  exact hp this

/-- The result of `FactChecker` on an input whose normalised form is not empty,
by the outcome of its two scans. -/
theorem factChecker_cases (input : JSString) (hne : sanitize input ≠ []) :
    FactChecker input =
      if matchCI (lit "all") (sanitize input) || matchCI (lit "always") (sanitize input) ||
          matchCI (lit "never") (sanitize input) then
        if matchCI (lit "blockchain") (sanitize input) || matchCI (lit "ai") (sanitize input) ||
            matchCI (lit "crypto") (sanitize input) then
          vagueLine ++ lit "\n" ++ buzzLine
        else vagueLine
      else
        if matchCI (lit "blockchain") (sanitize input) || matchCI (lit "ai") (sanitize input) ||
            matchCI (lit "crypto") (sanitize input) then
          buzzLine
        else lit "No obvious factual red flags." := by
  simp only [FactChecker, hne, if_false]
  split <;> split <;> simp [join, List.intercalate, List.intersperse, vagueLine, buzzLine]

/-- C12: when the normalised input contains one of "all", "always", "never"
and one of "blockchain", "ai", "crypto", each up to the case of the letters,
`FactChecker` returns the vague-absolutes line, a line feed and the buzzword
line. -/
theorem factChecker_both (input : JSString)
    (h1 : ContainsCI (lit "all") (sanitize input) ∨ ContainsCI (lit "always") (sanitize input) ∨
      ContainsCI (lit "never") (sanitize input))
    (h2 : ContainsCI (lit "blockchain") (sanitize input) ∨
      ContainsCI (lit "ai") (sanitize input) ∨ ContainsCI (lit "crypto") (sanitize input)) :
    FactChecker input =
      lit ("Vague absolutes detected: 'all/always/never'. Consider softening.\n" ++
        "Buzzword present: add concrete metric or user scenario.") := by
  have hne : sanitize input ≠ [] := by
    intro h
    rw [h] at h1
    rcases h1 with h | h | h <;> exact not_containsCI_nil _ (by decide) h
  have b1 : (matchCI (lit "all") (sanitize input) || matchCI (lit "always") (sanitize input) ||
      matchCI (lit "never") (sanitize input)) = true := by
    simp only [Bool.or_eq_true, matchCI_iff]
    tauto
  have b2 : (matchCI (lit "blockchain") (sanitize input) || matchCI (lit "ai") (sanitize input) ||
      matchCI (lit "crypto") (sanitize input)) = true := by
    simp only [Bool.or_eq_true, matchCI_iff]
    tauto
  rw [factChecker_cases input hne, b1, b2]
  decide


/-- C12 on "This will always work with blockchain". -/
theorem factChecker_both_witness :
    ContainsCI (lit "always") (sanitize alwaysBlockchain) ∧
    ContainsCI (lit "blockchain") (sanitize alwaysBlockchain) ∧
    FactChecker alwaysBlockchain =
      lit ("Vague absolutes detected: 'all/always/never'. Consider softening.\n" ++
        "Buzzword present: add concrete metric or user scenario.") :=
  have h1 : ContainsCI (lit "always") (sanitize alwaysBlockchain) :=
    (matchCI_iff _ _).mp (by decide)
  have h2 : ContainsCI (lit "blockchain") (sanitize alwaysBlockchain) :=
    (matchCI_iff _ _).mp (by decide)
  ⟨h1, h2, factChecker_both alwaysBlockchain (Or.inr (Or.inl h1)) (Or.inl h2)⟩

/-- C19: when the normalised input is not empty, `FactChecker` returns "No
obvious factual red flags." exactly when the normalised input contains none
of "all", "always", "never", "blockchain", "ai", "crypto" as a substring, up
to the case of the letters; an occurrence inside a word counts. -/
theorem factChecker_clean_iff (input : JSString) (hne : sanitize input ≠ []) :
    FactChecker input = lit "No obvious factual red flags." ↔
      (¬ContainsCI (lit "all") (sanitize input) ∧ ¬ContainsCI (lit "always") (sanitize input) ∧
        ¬ContainsCI (lit "never") (sanitize input) ∧
        ¬ContainsCI (lit "blockchain") (sanitize input) ∧
        ¬ContainsCI (lit "ai") (sanitize input) ∧ ¬ContainsCI (lit "crypto") (sanitize input)) := by
  rw [factChecker_cases input hne]
  simp only [← matchCI_iff]
  cases matchCI (lit "all") (sanitize input) <;>
  cases matchCI (lit "always") (sanitize input) <;>
  cases matchCI (lit "never") (sanitize input) <;>
  cases matchCI (lit "blockchain") (sanitize input) <;>
  cases matchCI (lit "ai") (sanitize input) <;>
  cases matchCI (lit "crypto") (sanitize input) <;>
  decide

/-- C19 on "email tool": "ai" occurs inside the word "email", so the result is
the buzzword line and not "No obvious factual red flags.". -/
theorem factChecker_clean_iff_witness :
    sanitize (lit "email tool") ≠ [] ∧
    ContainsCI (lit "ai") (sanitize (lit "email tool")) ∧
    FactChecker (lit "email tool") =
      lit "Buzzword present: add concrete metric or user scenario." ∧
    FactChecker (lit "email tool") ≠ lit "No obvious factual red flags." :=
  have hne : sanitize (lit "email tool") ≠ [] := by decide
  have hai : ContainsCI (lit "ai") (sanitize (lit "email tool")) :=
    (matchCI_iff _ _).mp (by decide)
  ⟨hne, hai, by decide,
    fun h => ((factChecker_clean_iff (lit "email tool") hne).mp h).2.2.2.2.1 hai⟩


/-! ## `Orchestrator` -/

theorem mem_intercalate (sep : JSString) (xs : List JSString) (c : Nat)
    (hc : c ∈ List.intercalate sep xs) : c ∈ sep ∨ ∃ w ∈ xs, c ∈ w := by
  induction xs with
  | nil => simp [List.intercalate, List.intersperse] at hc
  | cons x ys ih =>
    cases ys with
    | nil =>
      simp only [List.intercalate, List.intersperse, List.flatten, List.append_nil] at hc
      exact Or.inr ⟨x, List.mem_cons_self _ _, hc⟩
    | cons y zs =>
      rw [intercalate_cons_cons] at hc
      simp only [List.mem_append] at hc
      rcases hc with (h | h) | h
      · exact Or.inr ⟨x, List.mem_cons_self _ _, h⟩
      · exact Or.inl h
      · rcases ih h with h1 | ⟨w, hw, hcw⟩
        · exact Or.inl h1
        · exact Or.inr ⟨w, List.mem_cons_of_mem _ hw, hcw⟩

/-- The goal quoted in the first line of `Orchestrator`. -/
theorem orchestrator_goal_chars (input : JSString) (c : Nat)
    (hc : c ∈ join (lit " ") ((split 0x20 (sanitize input)).take 6) ++
      (if 40 < (sanitize input).length then lit "..." else [])) :
    c = 0x20 ∨ c = 0x2E ∨ isWs c = false := by
  obtain ⟨_, _, _, hws⟩ := sanitize_normalized input
  rcases List.mem_append.mp hc with h | h
  · rcases mem_intercalate _ _ c h with h1 | ⟨w, hw, hcw⟩
    · left
      simpa [lit] using h1
    · have hmem := (mem_of_mem_split 0x20 _ w (List.mem_of_mem_take hw) c hcw).1
      cases hcw1 : isWs c with
      | false => exact Or.inr (Or.inr rfl)
      | true => exact Or.inl (hws c hmem hcw1)
  · split at h
    · right; left
      have : c ∈ [0x2E, 0x2E, 0x2E] := h
      simpa using this
    · cases h


/-- C18: for every input `Orchestrator` returns three lines joined by two line
feeds, and no other line feed: the first is "Clarify: extract main goal
from '", the goal `x` and "'", where `x` is the first 6 words of the
normalised input joined by single spaces, followed by "..." exactly when the
normalised input has more than 40 characters; the second and the third are
fixed.  There is no fallback: for a blank input `x` is empty. -/
theorem orchestrator_lines (input : JSString) :
    ∃ x, Orchestrator input =
        lit "Clarify: extract main goal from '" ++ x ++ lit "'" ++ lit "\n" ++
          lit "Design minimal UX: single flow, 3 actions" ++ lit "\n" ++
          lit "Deliverables: README, demo, 1 test, 1 screenshot" ∧
      x = join (lit " ") ((split 0x20 (sanitize input)).take 6) ++
        (if 40 < (sanitize input).length then lit "..." else []) ∧
      (sanitize input ≠ [] →
        ∀ w ∈ split 0x20 (sanitize input), w ≠ [] ∧ ∀ c ∈ w, isWs c = false) ∧
      0x0A ∉ x ∧ (Orchestrator input).count 0x0A = 2 ∧
      ((∀ c ∈ input, isWs c = true) → x = []) := by
  have hx : 0x0A ∉ join (lit " ") ((split 0x20 (sanitize input)).take 6) ++
      (if 40 < (sanitize input).length then lit "..." else []) := by
    intro h
    rcases orchestrator_goal_chars input 0x0A h with h1 | h1 | h1
    · exact absurd h1 (by decide)
    · exact absurd h1 (by decide)
    · exact absurd h1 (by decide)
  have hform : Orchestrator input =
      lit "Clarify: extract main goal from '" ++
        (join (lit " ") ((split 0x20 (sanitize input)).take 6) ++
          (if 40 < (sanitize input).length then lit "..." else [])) ++ lit "'" ++ lit "\n" ++
        lit "Design minimal UX: single flow, 3 actions" ++ lit "\n" ++
        lit "Deliverables: README, demo, 1 test, 1 screenshot" := by
    simp only [Orchestrator, join, intercalate_cons_cons]
    simp [List.intercalate, List.intersperse, lit]
  refine ⟨_, hform, rfl, fun hne => ?_, hx, ?_, fun hb => ?_⟩
  · obtain ⟨hhead, hlast, hchain, hws⟩ := sanitize_normalized input
    intro w hw
    refine ⟨(split_pieces_ne_nil _ hne hlast hchain).2 hhead w hw, fun c hc => ?_⟩
    obtain ⟨hmem, hsp⟩ := mem_of_mem_split 0x20 _ w hw c hc
    cases hcw : isWs c with
    | false => rfl
    | true => exact absurd (hws c hmem hcw) hsp
  · rw [hform]
    simp only [List.count_append, List.count_eq_zero.mpr hx]
    decide
  · rw [sanitize_of_blank input hb]
    decide


/-! ## `Coder` -/

theorem splitNonWordAux_ne_nil (b : Bool) (t : JSString) : splitNonWordAux b t ≠ [] := by
  induction t generalizing b with
  | nil => simp [splitNonWordAux]
  | cons c cs ih =>
    simp only [splitNonWordAux]
    split
    · split <;> simp
    · split
      · exact ih true
      · simp

/-- The identifier of `Coder` is never empty, so the fallback "demo" is never
taken. -/
theorem coder_fileName_ne_nil (n : JSString) (hn : n ≠ []) :
    join (lit "-") ((splitNonWord n).take 3) ≠ [] := by
  cases n with
  | nil => exact absurd rfl hn
  | cons c cs =>
    simp only [splitNonWord, splitNonWordAux]
    split
    · split
      · next t ts _ =>
        cases ts with
        | nil => simp [join, List.intercalate, List.intersperse]
        | cons u us =>
          simp only [List.take_succ_cons, join, intercalate_cons_cons]
          simp
      · simp [join, List.intercalate, List.intersperse]
    · obtain ⟨y, ys, hy⟩ := List.exists_cons_of_ne_nil (splitNonWordAux_ne_nil true cs)
      simp only [Bool.false_eq_true, if_false, hy, List.take_succ_cons, join,
        intercalate_cons_cons]
      simp [lit]

/-- C15 on inputs with punctuation: on "!!!" the identifier is "-", not "demo";
on "!a b c" it is "-a-b" and on "a!" it is "a-", not the tokens joined by
hyphens; and the identifier is never empty, so "demo" is never used. -/
theorem coder_punctuation :
    Coder (lit "!!!") = lit "// -.js\nexport default function _()\x7b return 'hello from -'; \x7d" ∧
    Coder (lit "!a b c") =
      lit "// -a-b.js\nexport default function _a_b()\x7b return 'hello from -a-b'; \x7d" ∧
    Coder (lit "a!") =
      lit "// a-.js\nexport default function a_()\x7b return 'hello from a-'; \x7d" ∧
    Coder (lit "Build An email scheduler") =
      lit ("// build-an-email.js\nexport default function build_an_email()\x7b " ++
        "return 'hello from build-an-email'; \x7d") ∧
    (∀ input, toLowerCase (sanitize input) ≠ [] →
      join (lit "-") ((splitNonWord (toLowerCase (sanitize input))).take 3) ≠ []) :=
  ⟨by decide, by decide, by decide, by decide, fun _ h => coder_fileName_ne_nil _ h⟩


/-! ## The score in double arithmetic and in exact arithmetic -/

set_option maxRecDepth 1000000 in
set_option maxHeartbeats 4000000 in
theorem scoreOf_table :
    ∀ n, n < 120 → ∀ b : Bool,
      scoreOf n b = (10 * n + (if b then 720 else 360) + 12) / 24 - (scoreGap n b).toNat := by
  decide


theorem assessor_eq_scoreOf (input : JSString) (hne : sanitize input ≠ []) :
    Assessor input =
      ⟨scoreOf (sanitize input).length (testWordWsWord (sanitize input)),
        if scoreOf (sanitize input).length (testWordWsWord (sanitize input)) > 70 then
          lit "Ready for demo" else lit "Needs iteration"⟩ := by
  simp only [Assessor, hne, if_false, scoreOf]

set_option maxRecDepth 100000 in
theorem scoreOf_long (n : Nat) (hn : 120 ≤ n) (b : Bool) :
    scoreOf n b = if b then 80 else 65 := by
  simp only [scoreOf, Dbl.lenFactor_of_long n hn]
  cases b <;> decide

theorem exactScore_eq (n : Nat) (b : Bool) :
    exactScore n b =
      if n < 120 then (10 * n + (if b then 720 else 360) + 12) / 24
      else if b then 80 else 65 := by
  unfold exactScore
  by_cases h : n < 120
  · have hmin : min (1 : ℚ) ((n : ℚ) / 120) = (n : ℚ) / 120 := by
      apply min_eq_right
      rw [div_le_one (by norm_num)]
      exact_mod_cast (by omega : n ≤ 120)
    rw [hmin, if_pos h]
    cases b
    · have : ((1 / 2 : ℚ) * ((n : ℚ) / 120) + 1 / 2 * (3 / 10)) * 100 + 1 / 2 =
          ((10 * n + 360 + 12 : ℕ) : ℚ) / (24 : ℕ) := by
        push_cast; ring
      simp only [Bool.false_eq_true, if_false, this, Nat.floor_div_eq_div]
    · have : ((1 / 2 : ℚ) * ((n : ℚ) / 120) + 1 / 2 * (6 / 10)) * 100 + 1 / 2 =
          ((10 * n + 720 + 12 : ℕ) : ℚ) / (24 : ℕ) := by
        push_cast; ring
      simp only [if_true, this, Nat.floor_div_eq_div]
  · have hmin : min (1 : ℚ) ((n : ℚ) / 120) = 1 := by
      apply min_eq_left
      rw [one_le_div (by norm_num)]
      exact_mod_cast (by omega : 120 ≤ n)
    rw [hmin, if_neg h]
    cases b
    · have : ((1 / 2 : ℚ) * 1 + 1 / 2 * (3 / 10)) * 100 + 1 / 2 =
          ((131 : ℕ) : ℚ) / (2 : ℕ) := by
        push_cast; ring
      simp only [Bool.false_eq_true, if_false, this, Nat.floor_div_eq_div]
    · have : ((1 / 2 : ℚ) * 1 + 1 / 2 * (6 / 10)) * 100 + 1 / 2 =
          ((161 : ℕ) : ℚ) / (2 : ℕ) := by
        push_cast; ring
      simp only [if_true, this, Nat.floor_div_eq_div]


theorem scoreOf_eq_exact (n : Nat) (b : Bool) :
    scoreOf n b = exactScore n b - (scoreGap n b).toNat := by
  rw [exactScore_eq]
  by_cases h : n < 120
  · rw [if_pos h]
    exact scoreOf_table n h b
  · rw [if_neg h, scoreOf_long n (by omega) b]
    have hgap : scoreGap n b = false := by
      cases b <;> simp [scoreGap] <;> omega
    rw [hgap]
    rfl

/-- C16 as amended: when the normalised input `s` is not empty the score is
`round((0.5*lenFactor + 0.5*clarity)*100)` evaluated in double arithmetic; it
is the value of the exact formula with a half rounded up, except at the
lengths 18, 42 and 102 without the two-word pattern and 66 and 114 with it,
where it is one less; and the note is "Ready for demo" if the score exceeds
70, else "Needs iteration". -/
theorem assessor_score (input : JSString) (hne : sanitize input ≠ []) :
    (Assessor input).score =
      scoreOf (sanitize input).length (testWordWsWord (sanitize input)) ∧
    (Assessor input).score =
      exactScore (sanitize input).length (testWordWsWord (sanitize input)) -
        (scoreGap (sanitize input).length (testWordWsWord (sanitize input))).toNat ∧
    (Assessor input).note =
      if (Assessor input).score > 70 then lit "Ready for demo" else lit "Needs iteration" := by
  have h := assessor_eq_scoreOf input hne
  have he := scoreOf_eq_exact (sanitize input).length (testWordWsWord (sanitize input))
  generalize scoreOf (sanitize input).length (testWordWsWord (sanitize input)) = k at h he ⊢
  rw [h]
  exact ⟨rfl, he, rfl⟩

set_option maxRecDepth 100000 in
/-- C16 as amended, on "hello world": 11 characters, two words, score 35. -/
theorem assessor_score_witness :
    sanitize (lit "hello world") ≠ [] ∧
    (Assessor (lit "hello world")).score = 35 ∧
    exactScore 11 true = 35 ∧
    (Assessor (lit "hello world")).score =
      exactScore (sanitize (lit "hello world")).length
          (testWordWsWord (sanitize (lit "hello world"))) -
        (scoreGap (sanitize (lit "hello world")).length
          (testWordWsWord (sanitize (lit "hello world")))).toNat :=
  have hne : sanitize (lit "hello world") ≠ [] := by decide
  ⟨hne, by decide, by rw [exactScore_eq]; decide, (assessor_score (lit "hello world") hne).2.1⟩

set_option maxRecDepth 100000 in
/-- C16 as stated fails on a word of eighteen letters: the exact value is
22.5, which rounds up to 23, and the score in double arithmetic is 22. -/
theorem assessor_score_not_exact :
    sanitize eighteenLetters = eighteenLetters ∧ eighteenLetters.length = 18 ∧
    testWordWsWord (sanitize eighteenLetters) = false ∧
    (Assessor eighteenLetters).score = 22 ∧
    exactScore (sanitize eighteenLetters).length (testWordWsWord (sanitize eighteenLetters)) = 23 ∧
    (Assessor eighteenLetters).score ≠
      exactScore (sanitize eighteenLetters).length
        (testWordWsWord (sanitize eighteenLetters)) := by
  have h1 : sanitize eighteenLetters = eighteenLetters := by decide
  have h2 : eighteenLetters.length = 18 := by decide
  have h3 : testWordWsWord eighteenLetters = false := by decide
  have h4 : (Assessor eighteenLetters).score = 22 := by decide
  have h5 : exactScore 18 false = 23 := by rw [exactScore_eq]; decide
  rw [h1, h2, h3, h4, h5]
  exact ⟨rfl, rfl, rfl, rfl, rfl, by decide⟩

theorem scoreGap_cases (n : Nat) (b : Bool) :
    (scoreGap n b).toNat = 0 ∨
      ((scoreGap n b).toNat = 1 ∧
        ((b = false ∧ (n = 18 ∨ n = 42 ∨ n = 102)) ∨ (b = true ∧ (n = 66 ∨ n = 114)))) := by
  cases hg : scoreGap n b with
  | false => exact Or.inl rfl
  | true =>
    refine Or.inr ⟨rfl, ?_⟩
    cases b
    · left
      simpa [scoreGap, or_assoc] using hg
    · right
      simpa [scoreGap, or_assoc] using hg

/-- C20: the score is at most 80, and at least 15 when the normalised input is
not empty; the note is "Ready for demo" only if the normalised input has at
least 98 characters and passes the two-word test. -/
theorem assessor_bounds (input : JSString) :
    0 ≤ (Assessor input).score ∧ (Assessor input).score ≤ 80 ∧
    (sanitize input ≠ [] → 15 ≤ (Assessor input).score) ∧
    ((Assessor input).note = lit "Ready for demo" →
      98 ≤ (sanitize input).length ∧ testWordWsWord (sanitize input) = true) := by
  by_cases hne : sanitize input = []
  · have h : Assessor input = ⟨0, lit "Empty"⟩ := by simp [Assessor, hne]
    rw [h]
    exact ⟨Nat.zero_le _, by decide, fun h => absurd hne h, fun h => absurd h (by decide)⟩
  · rw [assessor_eq_scoreOf input hne]
    generalize (sanitize input).length = n
    generalize testWordWsWord (sanitize input) = b
    have hsc : scoreOf n b ≤ 80 ∧ 15 ≤ scoreOf n b ∧ (70 < scoreOf n b → 98 ≤ n ∧ b = true) := by
      by_cases h : n < 120
      · rw [scoreOf_table n h b]
        rcases scoreGap_cases n b with hg | ⟨hg, hn⟩
        · rw [hg]
          cases b
          · simp only [Bool.false_eq_true, if_false]
            exact ⟨by omega, by omega, fun h70 => absurd h70 (by omega)⟩
          · simp only [if_true]
            exact ⟨by omega, by omega, fun h70 => ⟨by omega, trivial⟩⟩
        · rw [hg]
          rcases hn with ⟨hb, hn⟩ | ⟨hb, hn⟩
          · subst hb
            simp only [Bool.false_eq_true, if_false]
            exact ⟨by omega, by omega, fun h70 => absurd h70 (by omega)⟩
          · subst hb
            simp only [if_true]
            exact ⟨by omega, by omega, fun h70 => ⟨by omega, trivial⟩⟩
      · rw [scoreOf_long n (by omega) b]
        cases b
        · simp
        · simp only [if_true]
          exact ⟨by omega, by omega, fun _ => ⟨by omega, trivial⟩⟩
    refine ⟨Nat.zero_le _, hsc.1, fun _ => hsc.2.1, fun hnote => ?_⟩
    by_cases h70 : 70 < scoreOf n b
    · exact hsc.2.2 h70
    · simp only [gt_iff_lt, h70, if_false] at hnote
      exact absurd hnote (by decide)

end GeniusSwarm
